import Mathlib

/-!
Shallow embedding of the output-splitting engine in
`src/core/output/outputSplit.ts`, together with proofs of the claims
about it.  The renderer (`generateOutput`) and the tokenizer backend are
external collaborators and are modelled as function parameters; machine
numbers supplied as budgets are modelled as rationals so that
non-integer values are representable; JavaScript `Map` insertion-order
semantics are modelled by association lists.
-/

/-- A selected file with content (`ProcessedFile` in `fileTypes.ts`). -/
structure ProcessedFile where
  path : String
  content : String
deriving DecidableEq

/-- `OutputSplitGroup` from `outputSplit.ts`. -/
structure OutputSplitGroup where
  rootEntry : String
  processedFiles : List ProcessedFile
  allFilePaths : List String
deriving DecidableEq

/-- `OutputSplitPart` from `outputSplit.ts` (`groups` is optional there). -/
structure OutputSplitPart where
  index : Nat
  filePath : String
  content : String
  byteLength : Nat
  tokenCount : Nat
  groups : Option (List OutputSplitGroup)
deriving DecidableEq

/-- The `output.git` portion of the merged configuration; `sortByChanges`
stands for the further git fields preserved by the object spread. -/
structure GitOutputConfig where
  includeDiffs : Bool
  includeLogs : Bool
  sortByChanges : Bool
deriving DecidableEq

/-- The `output` portion of the merged configuration; `style` stands for
the further output fields preserved by the object spread. -/
structure OutputConfig where
  filePath : String
  style : String
  git : GitOutputConfig
deriving DecidableEq

/-- `RepomixConfigMerged`; `tokenCountEncoding` stands for the fields of
the configuration outside `output`. -/
structure RepomixConfigMerged where
  output : OutputConfig
  tokenCountEncoding : String
deriving DecidableEq

/-- Opaque git-diff payload handed through to the renderer. -/
abbrev GitDiffResult := String

/-- Opaque git-log payload handed through to the renderer. -/
abbrev GitLogResult := String

/-- The `splitInfo` record passed to `generateOutput`. -/
structure SplitInfo where
  partNumber : Nat
  totalParts : Nat
  totalFiles : Nat
deriving DecidableEq

/-- The renderer collaborator (`GenerateOutputFn`): root dirs, per-part
configuration, files to embed, all known paths, optional diff, optional
log, optional split metadata. -/
abbrev GenerateOutputFn :=
  List String → RepomixConfigMerged → List ProcessedFile → List String →
    Option GitDiffResult → Option GitLogResult → Option SplitInfo → String

/-- The `RepomixError`s raised by `outputSplit.ts`, with the data that the
formatted message carries. -/
inductive RepomixError where
  | invalidMaxBytesPerPart (value : ℚ)
  | invalidMaxTokensPerPart (value : ℚ)
  | rootEntryExceedsMaxSize (rootEntry : String) (partBytes : Nat) (limitBytes : Nat)
  | fileExceedsMaxTokens (filePath : String) (tokens : Nat) (limitTokens : Nat)
deriving DecidableEq

/-- `relativeFilePath.replaceAll(path.win32.sep, path.posix.sep)`:
every backslash becomes a forward slash. -/
def normalizeSeparators (p : String) : String :=
  String.mk (p.data.map (fun c => if c = '\\' then '/' else c))

/-- JavaScript `String.prototype.split` with a single-character
separator, on the character list of the string. -/
def splitOnChar (sep : Char) : List Char → List (List Char)
  | [] => [[]]
  | c :: rest =>
    if c = sep then [] :: splitOnChar sep rest
    else
      match splitOnChar sep rest with
      | [] => [[c]]
      | s :: ss => (c :: s) :: ss

/-- `getRootEntry` from `outputSplit.ts`: first `/`-delimited segment of
the normalized path, or (`first || normalized`) the whole normalized
path when that segment is empty. -/
def getRootEntry (relativeFilePath : String) : String :=
  let normalized := normalizeSeparators relativeFilePath
  let first := (splitOnChar '/' normalized.data).headD []
  if first.isEmpty then normalized else String.mk first

/-- One step of the first loop of `buildOutputSplitGroups`: JavaScript
`Map` semantics — update the existing entry in place, else append. -/
def insertPathIntoGroups : List OutputSplitGroup → String → List OutputSplitGroup
  | [], filePath =>
    [{ rootEntry := getRootEntry filePath, processedFiles := [], allFilePaths := [filePath] }]
  | g :: gs, filePath =>
    if g.rootEntry = getRootEntry filePath then
      { g with allFilePaths := g.allFilePaths ++ [filePath] } :: gs
    else
      g :: insertPathIntoGroups gs filePath

/-- One step of the second loop of `buildOutputSplitGroups`. -/
def insertFileIntoGroups : List OutputSplitGroup → ProcessedFile → List OutputSplitGroup
  | [], f =>
    [{ rootEntry := getRootEntry f.path, processedFiles := [f], allFilePaths := [f.path] }]
  | g :: gs, f =>
    if g.rootEntry = getRootEntry f.path then
      { g with processedFiles := g.processedFiles ++ [f] } :: gs
    else
      g :: insertFileIntoGroups gs f

/-- Lexicographic comparison of character lists: the default
`localeCompare`-based ordering used to sort root entries, written as an
executable function (it agrees with the string order `≤`, see
`charListLe_iff_le`). -/
def charListLe : List Char → List Char → Bool
  | [], _ => true
  | _ :: _, [] => false
  | a :: as, b :: bs => if a = b then charListLe as bs else decide (a < b)

/-- `buildOutputSplitGroups` from `outputSplit.ts`: group all paths, then
all selected files, by root entry, and sort the map values by root
entry (`localeCompare` modelled as the lexicographic string order). -/
def buildOutputSplitGroups (processedFiles : List ProcessedFile) (allFilePaths : List String) :
    List OutputSplitGroup :=
  let pathGroups := allFilePaths.foldl insertPathIntoGroups []
  let allGroups := processedFiles.foldl insertFileIntoGroups pathGroups
  List.insertionSort (fun a b => charListLe a.rootEntry.data b.rootEntry.data = true) allGroups

/-- Node `path.extname`: from the last dot of the last path segment,
empty when there is no dot or the segment starts with its only dot. -/
def extname (p : String) : String :=
  let base := (splitOnChar '/' p.data).getLastD []
  let afterLastDot := base.reverse.takeWhile (fun c => c != '.')
  if afterLastDot.length = base.length then ""
  else if afterLastDot.length + 1 = base.length ∧ base.headD ' ' = '.' then ""
  else String.mk ('.' :: afterLastDot.reverse)

/-- `buildSplitOutputFilePath` from `outputSplit.ts`. -/
def buildSplitOutputFilePath (baseFilePath : String) (partIndex : Nat) : String :=
  let ext := extname baseFilePath
  if ext = "" then baseFilePath ++ "." ++ toString partIndex
  else
    let baseWithoutExt := String.mk (baseFilePath.data.take (baseFilePath.data.length - ext.data.length))
    baseWithoutExt ++ "." ++ toString partIndex ++ ext

/-- `Buffer.byteLength(content, 'utf8')`. -/
def getUtf8ByteLength (content : String) : Nat := content.utf8ByteSize

/-- `makeChunkConfig` from `outputSplit.ts`: for non-first chunks disable
git diffs/logs, keep everything else. -/
def makeChunkConfig (baseConfig : RepomixConfigMerged) (partIndex : Nat) : RepomixConfigMerged :=
  if partIndex = 1 then baseConfig
  else
    { baseConfig with
      output :=
        { baseConfig.output with
          git :=
            { baseConfig.output.git with includeDiffs := false, includeLogs := false } } }

/-- `renderFiles` from `outputSplit.ts`: call the renderer with the
per-chunk configuration; diff/log data only for part 1. -/
def renderFiles (processedFiles : List ProcessedFile) (allFilePaths : List String)
    (partIndex : Nat) (rootDirs : List String) (baseConfig : RepomixConfigMerged)
    (gitDiffResult : Option GitDiffResult) (gitLogResult : Option GitLogResult)
    (generateOutputFn : GenerateOutputFn) (splitInfo : Option SplitInfo) : String :=
  generateOutputFn rootDirs (makeChunkConfig baseConfig partIndex) processedFiles allFilePaths
    (if partIndex = 1 then gitDiffResult else none)
    (if partIndex = 1 then gitLogResult else none)
    splitInfo

/-- The parameters of `generateSplitOutputPartsByBytes` that stay fixed
through its loop. -/
structure ByteSplitCtx where
  generateOutputFn : GenerateOutputFn
  rootDirs : List String
  baseConfig : RepomixConfigMerged
  allFilePaths : List String
  gitDiffResult : Option GitDiffResult
  gitLogResult : Option GitLogResult
  maxBytesPerPart : Nat
  totalGroups : Nat

/-- A trial render in the byte splitter, with its split metadata. -/
def byteTrial (ctx : ByteSplitCtx) (files : List ProcessedFile) (partIndex : Nat) : String :=
  renderFiles files ctx.allFilePaths partIndex ctx.rootDirs ctx.baseConfig
    ctx.gitDiffResult ctx.gitLogResult ctx.generateOutputFn
    (some ⟨partIndex, ctx.totalGroups, ctx.allFilePaths.length⟩)

/-- The part record pushed by the byte splitter (token count not
calculated for byte-based split). -/
def mkBytePart (baseFilePath : String) (idx : Nat) (content : String) (bytes : Nat)
    (gs : List OutputSplitGroup) : OutputSplitPart :=
  { index := idx, filePath := buildSplitOutputFilePath baseFilePath idx, content := content,
    byteLength := bytes, tokenCount := 0, groups := some gs }

/-- The `for (const group of groups)` loop of
`generateSplitOutputPartsByBytes`, with the final flush of the
committed accumulator. -/
def splitByBytesLoop (ctx : ByteSplitCtx) :
    List OutputSplitGroup → List OutputSplitPart → List OutputSplitGroup → String → Nat →
      Except RepomixError (List OutputSplitPart)
  | [], parts, currentGroups, currentContent, currentBytes =>
    if currentGroups.isEmpty then .ok parts
    else
      .ok (parts ++
        [mkBytePart ctx.baseConfig.output.filePath (parts.length + 1) currentContent currentBytes
          currentGroups])
  | group :: rest, parts, currentGroups, currentContent, currentBytes =>
    let partIndex := parts.length + 1
    let nextGroups := currentGroups ++ [group]
    let nextContent := byteTrial ctx (nextGroups.flatMap (·.processedFiles)) partIndex
    let nextBytes := getUtf8ByteLength nextContent
    if nextBytes ≤ ctx.maxBytesPerPart then
      splitByBytesLoop ctx rest parts nextGroups nextContent nextBytes
    else if currentGroups.isEmpty then
      .error (.rootEntryExceedsMaxSize group.rootEntry nextBytes ctx.maxBytesPerPart)
    else
      let newParts := parts ++
        [mkBytePart ctx.baseConfig.output.filePath partIndex currentContent currentBytes
          currentGroups]
      let newPartIndex := newParts.length + 1
      let singleGroupContent := byteTrial ctx group.processedFiles newPartIndex
      let singleGroupBytes := getUtf8ByteLength singleGroupContent
      if ctx.maxBytesPerPart < singleGroupBytes then
        .error (.rootEntryExceedsMaxSize group.rootEntry singleGroupBytes ctx.maxBytesPerPart)
      else
        splitByBytesLoop ctx rest newParts [group] singleGroupContent singleGroupBytes

/-- `generateSplitOutputPartsByBytes` from `outputSplit.ts`. -/
def generateSplitOutputPartsByBytes (gen : GenerateOutputFn) (rootDirs : List String)
    (baseConfig : RepomixConfigMerged) (processedFiles : List ProcessedFile)
    (allFilePaths : List String) (maxBytesPerPart : Nat)
    (gitDiffResult : Option GitDiffResult) (gitLogResult : Option GitLogResult) :
    Except RepomixError (List OutputSplitPart) :=
  let groups := buildOutputSplitGroups processedFiles allFilePaths
  if groups.isEmpty then .ok []
  else
    splitByBytesLoop
      ⟨gen, rootDirs, baseConfig, allFilePaths, gitDiffResult, gitLogResult, maxBytesPerPart,
        groups.length⟩
      groups [] [] "" 0

/-- Estimation constant for overhead (XML tags, headers, etc.). -/
def overheadPerFile : Nat := 20

/-- Lookup in the `tokenMap` built with `new Map(fileTokenCounts.map ...)`:
later entries override earlier ones, a missing path yields 0
(the `|| 0`). -/
def tokenMapLookup (entries : List (String × Nat)) (p : String) : Nat :=
  (((entries.reverse.find? (fun e => e.1 = p)).map (fun e => e.2)).getD 0)

/-- The per-path estimated token count used by the greedy bin-pack:
worker-pool results for every selected file, keyed by path. -/
def fileTokenLookup (tokenCounter : String → Nat) (processedFiles : List ProcessedFile) :
    String → Nat :=
  fun p => tokenMapLookup (processedFiles.map (fun f => (f.path, tokenCounter f.content))) p

/-- The greedy bin-pack loop of `generateSplitOutputPartsByTokens`
(`for (const file of processedFiles)` plus the trailing flush). -/
def tokenBinPackLoop (fileTok : String → Nat) (maxTokensPerPart : Nat) :
    List ProcessedFile → List (List ProcessedFile) → List ProcessedFile → Nat →
      List (List ProcessedFile)
  | [], partFileData, currentFiles, _ =>
    if currentFiles.isEmpty then partFileData else partFileData ++ [currentFiles]
  | file :: rest, partFileData, currentFiles, currentTokens =>
    let fileTokens := fileTok file.path + overheadPerFile
    if maxTokensPerPart < fileTokens then
      if currentFiles.isEmpty then
        tokenBinPackLoop fileTok maxTokensPerPart rest (partFileData ++ [[file]]) currentFiles
          currentTokens
      else
        tokenBinPackLoop fileTok maxTokensPerPart rest (partFileData ++ [currentFiles, [file]]) [] 0
    else if maxTokensPerPart < currentTokens + fileTokens then
      tokenBinPackLoop fileTok maxTokensPerPart rest (partFileData ++ [currentFiles]) [file]
        fileTokens
    else
      tokenBinPackLoop fileTok maxTokensPerPart rest partFileData (currentFiles ++ [file])
        (currentTokens + fileTokens)

/-- The parameters of `generateSplitOutputPartsByTokens` that stay fixed
through its render-and-verify loop. -/
structure TokenSplitCtx where
  generateOutputFn : GenerateOutputFn
  tokenCounter : String → Nat
  rootDirs : List String
  baseConfig : RepomixConfigMerged
  allFilePaths : List String
  gitDiffResult : Option GitDiffResult
  gitLogResult : Option GitLogResult
  maxTokensPerPart : Nat
  totalParts : Nat

/-- The rendered document of one pending token batch. -/
def tokenPartContent (ctx : TokenSplitCtx) (files : List ProcessedFile) (partIndex : Nat) :
    String :=
  renderFiles files ctx.allFilePaths partIndex ctx.rootDirs ctx.baseConfig
    ctx.gitDiffResult ctx.gitLogResult ctx.generateOutputFn
    (some ⟨partIndex, ctx.totalParts, ctx.allFilePaths.length⟩)

/-- The render-and-exact-verify loop of `generateSplitOutputPartsByTokens`
(`for (let i = 0; i < totalParts; i++)`). -/
def tokenRenderLoop (ctx : TokenSplitCtx) :
    List (List ProcessedFile) → Nat → List OutputSplitPart →
      Except RepomixError (List OutputSplitPart)
  | [], _, parts => .ok parts
  | files :: rest, i, parts =>
    let partIndex := i + 1
    let content := tokenPartContent ctx files partIndex
    let tokenCount := ctx.tokenCounter content
    if files.length = 1 ∧ ctx.maxTokensPerPart < tokenCount then
      .error (.fileExceedsMaxTokens (files.headD ⟨"", ""⟩).path tokenCount ctx.maxTokensPerPart)
    else
      tokenRenderLoop ctx rest (i + 1)
        (parts ++
          [{ index := partIndex,
             filePath := buildSplitOutputFilePath ctx.baseConfig.output.filePath partIndex,
             content := content, byteLength := getUtf8ByteLength content,
             tokenCount := tokenCount, groups := none }])

/-- `generateSplitOutputPartsByTokens` from `outputSplit.ts`; the
tokenizer backend (worker pool and `calculateOutputMetrics`) is the
`tokenCounter` collaborator. -/
def generateSplitOutputPartsByTokens (gen : GenerateOutputFn) (tokenCounter : String → Nat)
    (rootDirs : List String) (baseConfig : RepomixConfigMerged)
    (processedFiles : List ProcessedFile) (allFilePaths : List String)
    (maxTokensPerPart : Nat) (gitDiffResult : Option GitDiffResult)
    (gitLogResult : Option GitLogResult) : Except RepomixError (List OutputSplitPart) :=
  let partFileData :=
    tokenBinPackLoop (fileTokenLookup tokenCounter processedFiles) maxTokensPerPart processedFiles
      [] [] 0
  tokenRenderLoop
    ⟨gen, tokenCounter, rootDirs, baseConfig, allFilePaths, gitDiffResult, gitLogResult,
      maxTokensPerPart, partFileData.length⟩
    partFileData 0 []

/-- `Number.isSafeInteger` on a JavaScript number modelled as a
rational. -/
def jsIsSafeInteger (q : ℚ) : Bool :=
  q.den == 1 && decide (q.num.natAbs ≤ 2 ^ 53 - 1)

/-- The budget check `!Number.isSafeInteger(x) || x <= 0`. -/
def invalidBudget (q : ℚ) : Bool := !jsIsSafeInteger q || decide (q ≤ 0)

/-- Budget check lifted to an optional budget (absent budgets are not
validated). -/
def optionInvalid : Option ℚ → Bool
  | none => false
  | some q => invalidBudget q

/-- `generateSplitOutputParts` from `outputSplit.ts`: validate the
budgets, then dispatch (tokens take priority), else return no parts. -/
def generateSplitOutputParts (gen : GenerateOutputFn) (tokenCounter : String → Nat)
    (rootDirs : List String) (baseConfig : RepomixConfigMerged)
    (processedFiles : List ProcessedFile) (allFilePaths : List String)
    (maxBytesPerPart maxTokensPerPart : Option ℚ)
    (gitDiffResult : Option GitDiffResult) (gitLogResult : Option GitLogResult) :
    Except RepomixError (List OutputSplitPart) :=
  if optionInvalid maxBytesPerPart then
    .error (.invalidMaxBytesPerPart (maxBytesPerPart.getD 0))
  else if optionInvalid maxTokensPerPart then
    .error (.invalidMaxTokensPerPart (maxTokensPerPart.getD 0))
  else
    match maxTokensPerPart with
    | some t =>
      generateSplitOutputPartsByTokens gen tokenCounter rootDirs baseConfig processedFiles
        allFilePaths t.num.toNat gitDiffResult gitLogResult
    | none =>
      match maxBytesPerPart with
      | some b =>
        generateSplitOutputPartsByBytes gen rootDirs baseConfig processedFiles allFilePaths
          b.num.toNat gitDiffResult gitLogResult
      | none => .ok []

/-- Decidable equality of results, used to evaluate the engine on
concrete inputs. -/
instance {e a : Type} [DecidableEq e] [DecidableEq a] : DecidableEq (Except e a) := fun x y =>
  match x, y with
  | .ok u, .ok v => if h : u = v then .isTrue (by rw [h]) else .isFalse (by simp [h])
  | .error u, .error v => if h : u = v then .isTrue (by rw [h]) else .isFalse (by simp [h])
  | .ok _, .error _ => .isFalse (by simp)
  | .error _, .ok _ => .isFalse (by simp)

/-- The groups recorded in a list of parts, in part order. -/
def embeddedGroups (parts : List OutputSplitPart) : List OutputSplitGroup :=
  parts.flatMap (fun p => p.groups.getD [])

/-- The selected files carried by a list of groups, in group order. -/
def groupFiles (gs : List OutputSplitGroup) : List ProcessedFile :=
  gs.flatMap (·.processedFiles)

/-- Files used by the concrete token scenarios. -/
def scenarioFiles : List ProcessedFile := [⟨"a", "c1"⟩, ⟨"b", "c2"⟩, ⟨"c", "c3"⟩]

/-- Concrete renderer for witness scenarios: 50 bytes per embedded
file. -/
def wByteGen : GenerateOutputFn :=
  fun _ _ files _ _ _ _ => String.mk (List.replicate (files.length * 50) 'x')

/-- Concrete configuration for witness scenarios. -/
def wConfig : RepomixConfigMerged :=
  { output := { filePath := "repomix-output.xml", style := "xml",
                git := { includeDiffs := false, includeLogs := false, sortByChanges := false } },
    tokenCountEncoding := "o200k_base" }

/-- Selected files of the byte-mode witness scenario. -/
def wFiles : List ProcessedFile := [⟨"src/a.ts", "source a"⟩, ⟨"tests/test.ts", "test content"⟩]

/-- All-path list of the byte-mode witness scenario. -/
def wPaths : List String := ["src/a.ts", "tests/test.ts"]

/-- The two parts produced by the byte-mode witness scenario with byte
budget 70. -/
def wParts : List OutputSplitPart :=
  [⟨1, "repomix-output.1.xml", String.mk (List.replicate 50 'x'), 50, 0,
    some [⟨"src", [⟨"src/a.ts", "source a"⟩], ["src/a.ts"]⟩]⟩,
   ⟨2, "repomix-output.2.xml", String.mk (List.replicate 50 'x'), 50, 0,
    some [⟨"tests", [⟨"tests/test.ts", "test content"⟩], ["tests/test.ts"]⟩]⟩]

/-- The `src` group of the witness scenario. -/
def wGroup1 : OutputSplitGroup := ⟨"src", [⟨"src/a.ts", "source a"⟩], ["src/a.ts"]⟩

/-- The `tests` group of the witness scenario. -/
def wGroup2 : OutputSplitGroup := ⟨"tests", [⟨"tests/test.ts", "test content"⟩], ["tests/test.ts"]⟩

/-- A two-file group that renders over the 70-byte witness budget even
alone. -/
def wGroupBig : OutputSplitGroup := ⟨"big", [⟨"big/a", "1"⟩, ⟨"big/b", "2"⟩], ["big/a", "big/b"]⟩

/-- Byte-splitter context of the witness scenario (budget 70). -/
def wByteCtx : ByteSplitCtx := ⟨wByteGen, ["/test"], wConfig, wPaths, none, none, 70, 2⟩

/-- Byte-splitter context with budget 10 (first group fails alone). -/
def wByteCtx10 : ByteSplitCtx := ⟨wByteGen, ["/test"], wConfig, wPaths, none, none, 10, 2⟩

/-- Configuration of the token-mode witness scenarios. -/
def wTokConfig : RepomixConfigMerged :=
  { output := { filePath := "out.xml", style := "xml",
                git := { includeDiffs := false, includeLogs := false, sortByChanges := false } },
    tokenCountEncoding := "enc" }

/-- The three single-file parts of the token-mode witness scenario. -/
def wTokParts : List OutputSplitPart :=
  [⟨1, "out.1.xml", "r", 1, 60, none⟩, ⟨2, "out.2.xml", "r", 1, 60, none⟩,
   ⟨3, "out.3.xml", "r", 1, 60, none⟩]

/-- The oversized single file of the token-mode error scenario. -/
def wC5files : List ProcessedFile := [⟨"big", "b"⟩]

/-- Renderer of the token-mode error scenario: 200 characters. -/
def wC5gen : GenerateOutputFn := fun _ _ _ _ _ _ _ => String.mk (List.replicate 200 'z')

/-- Tokenizer of the token-mode error scenario: one token per
character. -/
def wC5tc : String → Nat := fun s => s.length

/-- The first part of the byte-mode witness scenario. -/
def wPart1 : OutputSplitPart :=
  ⟨1, "repomix-output.1.xml", String.mk (List.replicate 50 'x'), 50, 0,
    some [⟨"src", [⟨"src/a.ts", "source a"⟩], ["src/a.ts"]⟩]⟩

/-- The `src` group of the grouping witness scenario. -/
def wGroupSrc : OutputSplitGroup := ⟨"src", [⟨"src/a.ts", "x"⟩], ["src/a.ts"]⟩

/-! ## Helper lemmas -/

theorem splitOnChar_ne_nil (sep : Char) (cs : List Char) : splitOnChar sep cs ≠ [] := by
  induction cs with
  | nil => simp [splitOnChar]
  | cons c rest ih =>
    simp only [splitOnChar]
    split
    · simp
    · cases h : splitOnChar sep rest with
      | nil => simp
      | cons s ss => simp

theorem splitOnChar_headD (sep : Char) (cs : List Char) :
    (splitOnChar sep cs).headD [] = cs.takeWhile (fun c => c != sep) := by
  induction cs with
  | nil => simp [splitOnChar]
  | cons c rest ih =>
    by_cases hc : c = sep
    · simp [splitOnChar, hc]
    · have hb : (c != sep) = true := by simpa [bne_iff_ne] using hc
      simp only [splitOnChar, if_neg hc]
      cases h : splitOnChar sep rest with
      | nil => exact absurd h (splitOnChar_ne_nil sep rest)
      | cons s ss =>
        rw [h] at ih
        simp only [List.headD_cons] at ih
        simp [List.takeWhile_cons, hb, ih]

/-! ## C10 — root-entry extraction -/

/-- C10: for every input path, `getRootEntry` returns the first
`/`-delimited segment of the path after normalizing Windows separators
to `/`, except that when this first segment is empty it returns the
entire normalized path; and the first segment is empty exactly for the
empty path or a path beginning with a separator. -/
theorem getRootEntry_first_segment (p : String) :
    (getRootEntry p =
      if (normalizeSeparators p).data.takeWhile (fun c => c != '/') = [] then
        normalizeSeparators p
      else String.mk ((normalizeSeparators p).data.takeWhile (fun c => c != '/'))) ∧
    ((normalizeSeparators p).data.takeWhile (fun c => c != '/') = [] ↔
      ((normalizeSeparators p).data = [] ∨ (normalizeSeparators p).data.head? = some '/')) := by
  constructor
  · show (if ((splitOnChar '/' (normalizeSeparators p).data).headD []).isEmpty then _ else _) = _
    rw [splitOnChar_headD]
    rcases h : (normalizeSeparators p).data.takeWhile (fun c => c != '/') with _ | ⟨c, cs⟩
    · simp
    · simp
  · cases h : (normalizeSeparators p).data with
    | nil => simp
    | cons c rest =>
      by_cases hc : c = '/'
      · simp [hc, List.takeWhile_cons]
      · have hb : (c != '/') = true := by simpa [bne_iff_ne] using hc
        simp [List.takeWhile_cons, hb, hc]

/-! ## C9 — per-part configuration and diff/log suppression -/

/-- C9: for part indices greater than 1, `renderFiles` passes a
configuration identical to the base configuration except that
`output.git.includeDiffs` and `output.git.includeLogs` are false, and
passes no diff/log data; for part index 1 it passes the base
configuration and the caller-supplied diff/log data unchanged. -/
theorem renderFiles_chunk_config (base : RepomixConfigMerged) (i : Nat)
    (pfs : List ProcessedFile) (afp : List String) (rd : List String)
    (d : Option GitDiffResult) (l : Option GitLogResult) (gen : GenerateOutputFn)
    (si : Option SplitInfo) :
    (1 < i →
      makeChunkConfig base i =
        { base with
          output :=
            { base.output with
              git := { base.output.git with includeDiffs := false, includeLogs := false } } } ∧
      renderFiles pfs afp i rd base d l gen si =
        gen rd
          { base with
            output :=
              { base.output with
                git := { base.output.git with includeDiffs := false, includeLogs := false } } }
          pfs afp none none si) ∧
    (makeChunkConfig base 1 = base ∧
      renderFiles pfs afp 1 rd base d l gen si = gen rd base pfs afp d l si) := by
  refine ⟨fun hi => ?_, ?_⟩
  · have hne : i ≠ 1 := by omega
    constructor
    · simp [makeChunkConfig, hne]
    · simp [renderFiles, makeChunkConfig, hne]
  · constructor
    · simp [makeChunkConfig]
    · simp [renderFiles, makeChunkConfig]

/-- Witness for `renderFiles_chunk_config` at part index 2. -/
theorem renderFiles_chunk_config_witness :
    makeChunkConfig ⟨⟨"out.xml", "xml", ⟨true, true, true⟩⟩, "enc"⟩ 2 =
      ⟨⟨"out.xml", "xml", ⟨false, false, true⟩⟩, "enc"⟩ :=
  ((renderFiles_chunk_config ⟨⟨"out.xml", "xml", ⟨true, true, true⟩⟩, "enc"⟩ 2 [] [] [] none none
      (fun _ _ _ _ _ _ _ => "") none).1 (by decide)).1

/-! ## C8 — budget validation and the no-budget case -/

/-- C8: a supplied byte or token budget that is not a positive integer in
the safe-integer range makes `generateSplitOutputParts` fail at once
with the corresponding error, whatever the renderer and tokenizer are
(no rendering or tokenization depends on them); with no budget at all it
returns the empty list, again independently of renderer and tokenizer. -/
theorem generateSplitOutputParts_validation :
    (∀ (gen : GenerateOutputFn) (tc : String → Nat) (rd : List String)
        (cfg : RepomixConfigMerged) (pf : List ProcessedFile) (afp : List String) (b : ℚ)
        (mt : Option ℚ) (d : Option GitDiffResult) (l : Option GitLogResult),
      ¬(b.den = 1 ∧ b.num.natAbs ≤ 2 ^ 53 - 1 ∧ 0 < b) →
        generateSplitOutputParts gen tc rd cfg pf afp (some b) mt d l =
          .error (.invalidMaxBytesPerPart b)) ∧
    (∀ (gen : GenerateOutputFn) (tc : String → Nat) (rd : List String)
        (cfg : RepomixConfigMerged) (pf : List ProcessedFile) (afp : List String)
        (mb : Option ℚ) (t : ℚ) (d : Option GitDiffResult) (l : Option GitLogResult),
      (∀ b ∈ mb, b.den = 1 ∧ b.num.natAbs ≤ 2 ^ 53 - 1 ∧ 0 < b) →
      ¬(t.den = 1 ∧ t.num.natAbs ≤ 2 ^ 53 - 1 ∧ 0 < t) →
        generateSplitOutputParts gen tc rd cfg pf afp mb (some t) d l =
          .error (.invalidMaxTokensPerPart t)) ∧
    (∀ (gen : GenerateOutputFn) (tc : String → Nat) (rd : List String)
        (cfg : RepomixConfigMerged) (pf : List ProcessedFile) (afp : List String)
        (d : Option GitDiffResult) (l : Option GitLogResult),
      generateSplitOutputParts gen tc rd cfg pf afp none none d l = .ok []) := by
  have hinv : ∀ q : ℚ, invalidBudget q = true ↔
      ¬(q.den = 1 ∧ q.num.natAbs ≤ 2 ^ 53 - 1 ∧ 0 < q) := by
    intro q
    constructor
    · intro h hc
      rcases hc with ⟨hd, hn, hp⟩
      have hs : jsIsSafeInteger q = true := by
        simp only [jsIsSafeInteger, Bool.and_eq_true, beq_iff_eq, decide_eq_true_iff]
        exact ⟨hd, hn⟩
      have hfalse : invalidBudget q = false := by
        simp [invalidBudget, hs, not_le.mpr hp]
      rw [h] at hfalse
      simp at hfalse
    · intro h
      rw [invalidBudget, Bool.or_eq_true]
      by_cases hs : jsIsSafeInteger q = true
      · right
        rw [decide_eq_true_iff]
        rw [jsIsSafeInteger, Bool.and_eq_true, beq_iff_eq, decide_eq_true_iff] at hs
        by_contra hq
        exact h ⟨hs.1, hs.2, lt_of_not_le hq⟩
      · left
        simp [hs]
  refine ⟨?_, ?_, ?_⟩
  · intro gen tc rd cfg pf afp b mt d l hb
    have hb' : optionInvalid (some b) = true := by
      simpa [optionInvalid] using (hinv b).mpr hb
    simp [generateSplitOutputParts, hb']
  · intro gen tc rd cfg pf afp mb t d l hmb ht
    have hmb' : optionInvalid mb = false := by
      cases mb with
      | none => rfl
      | some b =>
        have hv := hmb b (by simp)
        cases hcb : invalidBudget b with
        | false => simpa [optionInvalid] using hcb
        | true => exact absurd hv ((hinv b).mp hcb)
    have ht' : optionInvalid (some t) = true := by
      simpa [optionInvalid] using (hinv t).mpr ht
    simp [generateSplitOutputParts, hmb', ht']
  · intro gen tc rd cfg pf afp d l
    simp [generateSplitOutputParts, optionInvalid]

/-- Witness for `generateSplitOutputParts_validation`: budget 0 is
rejected as a byte budget and as a token budget. -/
theorem generateSplitOutputParts_validation_witness :
    generateSplitOutputParts (fun _ _ _ _ _ _ _ => "") (fun _ => 0) [] ⟨⟨"o", "s", ⟨false, false, false⟩⟩, "e"⟩
        [] [] (some 0) none none none = .error (.invalidMaxBytesPerPart 0) ∧
    generateSplitOutputParts (fun _ _ _ _ _ _ _ => "") (fun _ => 0) [] ⟨⟨"o", "s", ⟨false, false, false⟩⟩, "e"⟩
        [] [] none (some 0) none none = .error (.invalidMaxTokensPerPart 0) := by
  constructor
  · exact generateSplitOutputParts_validation.1 _ _ _ _ _ _ 0 none none none (by norm_num)
  · exact generateSplitOutputParts_validation.2.1 _ _ _ _ _ _ none 0 none none
      (by simp) (by norm_num)

/-! ## C2 — byte splitter control flow -/

/-- C2: the byte splitter accepts a trial that fits the budget; when the
trial exceeds the budget with a non-empty committed accumulator it
closes the accumulator as a part and renders the candidate group alone,
failing with the offending root entry and the measured/limit byte
counts when that single-group render exceeds the budget; with an empty
accumulator (the very first group) it fails immediately the same way;
after all groups are consumed a non-empty accumulator becomes the final
part; and `generateSplitOutputPartsByBytes` is this loop started from
the empty state. -/
theorem splitByBytesLoop_steps (ctx : ByteSplitCtx) (group : OutputSplitGroup)
    (rest : List OutputSplitGroup) (parts : List OutputSplitPart)
    (cur : List OutputSplitGroup) (cc : String) (cb : Nat) :
    (getUtf8ByteLength
        (byteTrial ctx ((cur ++ [group]).flatMap (·.processedFiles)) (parts.length + 1)) ≤
        ctx.maxBytesPerPart →
      splitByBytesLoop ctx (group :: rest) parts cur cc cb =
        splitByBytesLoop ctx rest parts (cur ++ [group])
          (byteTrial ctx ((cur ++ [group]).flatMap (·.processedFiles)) (parts.length + 1))
          (getUtf8ByteLength
            (byteTrial ctx ((cur ++ [group]).flatMap (·.processedFiles)) (parts.length + 1)))) ∧
    (ctx.maxBytesPerPart <
        getUtf8ByteLength
          (byteTrial ctx ((cur ++ [group]).flatMap (·.processedFiles)) (parts.length + 1)) →
      cur = [] →
      splitByBytesLoop ctx (group :: rest) parts cur cc cb =
        .error (.rootEntryExceedsMaxSize group.rootEntry
          (getUtf8ByteLength
            (byteTrial ctx ((cur ++ [group]).flatMap (·.processedFiles)) (parts.length + 1)))
          ctx.maxBytesPerPart)) ∧
    (ctx.maxBytesPerPart <
        getUtf8ByteLength
          (byteTrial ctx ((cur ++ [group]).flatMap (·.processedFiles)) (parts.length + 1)) →
      cur ≠ [] →
      ctx.maxBytesPerPart < getUtf8ByteLength (byteTrial ctx group.processedFiles (parts.length + 2)) →
      splitByBytesLoop ctx (group :: rest) parts cur cc cb =
        .error (.rootEntryExceedsMaxSize group.rootEntry
          (getUtf8ByteLength (byteTrial ctx group.processedFiles (parts.length + 2)))
          ctx.maxBytesPerPart)) ∧
    (ctx.maxBytesPerPart <
        getUtf8ByteLength
          (byteTrial ctx ((cur ++ [group]).flatMap (·.processedFiles)) (parts.length + 1)) →
      cur ≠ [] →
      getUtf8ByteLength (byteTrial ctx group.processedFiles (parts.length + 2)) ≤
        ctx.maxBytesPerPart →
      splitByBytesLoop ctx (group :: rest) parts cur cc cb =
        splitByBytesLoop ctx rest
          (parts ++ [mkBytePart ctx.baseConfig.output.filePath (parts.length + 1) cc cb cur])
          [group] (byteTrial ctx group.processedFiles (parts.length + 2))
          (getUtf8ByteLength (byteTrial ctx group.processedFiles (parts.length + 2)))) ∧
    (splitByBytesLoop ctx [] parts cur cc cb =
      if cur.isEmpty then .ok parts
      else
        .ok (parts ++
          [mkBytePart ctx.baseConfig.output.filePath (parts.length + 1) cc cb cur])) ∧
    (∀ (gen : GenerateOutputFn) (rd : List String) (cfg : RepomixConfigMerged)
        (pf : List ProcessedFile) (afp : List String) (maxB : Nat)
        (d : Option GitDiffResult) (l : Option GitLogResult),
      generateSplitOutputPartsByBytes gen rd cfg pf afp maxB d l =
        if (buildOutputSplitGroups pf afp).isEmpty then .ok []
        else
          splitByBytesLoop
            ⟨gen, rd, cfg, afp, d, l, maxB, (buildOutputSplitGroups pf afp).length⟩
            (buildOutputSplitGroups pf afp) [] [] "" 0) := by
  refine ⟨fun h => ?_, fun h hcur => ?_, fun h hcur hs => ?_, fun h hcur hs => ?_, ?_, ?_⟩
  · simp only [splitByBytesLoop]
    rw [if_pos h]
  · subst hcur
    simp only [splitByBytesLoop]
    rw [if_neg (not_le.mpr h)]
    simp
  · have hc : cur.isEmpty = false := by
      cases cur with
      | nil => exact absurd rfl hcur
      | cons a as => rfl
    simp only [splitByBytesLoop]
    rw [if_neg (not_le.mpr h)]
    simp only [hc, Bool.false_eq_true, if_false, List.length_append, List.length_cons,
      List.length_nil]
    rw [if_pos (by simpa using hs)]
  · have hc : cur.isEmpty = false := by
      cases cur with
      | nil => exact absurd rfl hcur
      | cons a as => rfl
    simp only [splitByBytesLoop]
    rw [if_neg (not_le.mpr h)]
    simp only [hc, Bool.false_eq_true, if_false, List.length_append, List.length_cons,
      List.length_nil]
    rw [if_neg (by simpa using not_lt.mpr hs)]
  · rfl
  · intro gen rd cfg pf afp maxB d l
    rfl

/-! ## C6 — token-mode greedy bin-pack -/

/-- C6: the greedy bin-pack walks files in order with estimate plus the
fixed per-file overhead: an estimate alone over budget flushes any
non-empty batch and isolates the file as its own pending part (no
failure here); an estimate overflowing the running total flushes the
batch and restarts with the file; otherwise the file accumulates; a
non-empty trailing batch is flushed; and three files with adjusted
estimate 80 against budget 100 give exactly three single-file parts. -/
theorem tokenBinPackLoop_steps (fileTok : String → Nat) (maxT : Nat) (file : ProcessedFile)
    (rest : List ProcessedFile) (pfd : List (List ProcessedFile)) (cur : List ProcessedFile)
    (ct : Nat) :
    (maxT < fileTok file.path + overheadPerFile → cur ≠ [] →
      tokenBinPackLoop fileTok maxT (file :: rest) pfd cur ct =
        tokenBinPackLoop fileTok maxT rest (pfd ++ [cur, [file]]) [] 0) ∧
    (maxT < fileTok file.path + overheadPerFile → cur = [] →
      tokenBinPackLoop fileTok maxT (file :: rest) pfd cur ct =
        tokenBinPackLoop fileTok maxT rest (pfd ++ [[file]]) cur ct) ∧
    (fileTok file.path + overheadPerFile ≤ maxT →
      maxT < ct + (fileTok file.path + overheadPerFile) →
      tokenBinPackLoop fileTok maxT (file :: rest) pfd cur ct =
        tokenBinPackLoop fileTok maxT rest (pfd ++ [cur]) [file]
          (fileTok file.path + overheadPerFile)) ∧
    (fileTok file.path + overheadPerFile ≤ maxT →
      ct + (fileTok file.path + overheadPerFile) ≤ maxT →
      tokenBinPackLoop fileTok maxT (file :: rest) pfd cur ct =
        tokenBinPackLoop fileTok maxT rest pfd (cur ++ [file])
          (ct + (fileTok file.path + overheadPerFile))) ∧
    (tokenBinPackLoop fileTok maxT [] pfd cur ct =
      if cur.isEmpty then pfd else pfd ++ [cur]) ∧
    (tokenBinPackLoop (fun _ => 60) 100 scenarioFiles [] [] 0 =
      [[⟨"a", "c1"⟩], [⟨"b", "c2"⟩], [⟨"c", "c3"⟩]]) := by
  refine ⟨fun h hcur => ?_, fun h hcur => ?_, fun h1 h2 => ?_, fun h1 h2 => ?_, rfl, by decide⟩
  · have hc : cur.isEmpty = false := by
      cases cur with
      | nil => exact absurd rfl hcur
      | cons a as => rfl
    simp only [tokenBinPackLoop]
    rw [if_pos h]
    simp [hc]
  · subst hcur
    simp only [tokenBinPackLoop]
    rw [if_pos h]
    simp
  · simp only [tokenBinPackLoop]
    rw [if_neg (not_lt.mpr h1), if_pos h2]
  · simp only [tokenBinPackLoop]
    rw [if_neg (not_lt.mpr h1), if_neg (not_lt.mpr h2)]

/-! ## C3 — byte parts stay within budget -/

theorem splitByBytesLoop_parts_bounded (ctx : ByteSplitCtx) :
    ∀ (groups : List OutputSplitGroup) (parts : List OutputSplitPart)
      (cur : List OutputSplitGroup) (cc : String) (cb : Nat) (res : List OutputSplitPart),
      (∀ p ∈ parts, p.byteLength ≤ ctx.maxBytesPerPart ∧
        p.byteLength = getUtf8ByteLength p.content) →
      cb ≤ ctx.maxBytesPerPart → cb = getUtf8ByteLength cc →
      splitByBytesLoop ctx groups parts cur cc cb = .ok res →
      ∀ p ∈ res, p.byteLength ≤ ctx.maxBytesPerPart ∧
        p.byteLength = getUtf8ByteLength p.content := by
  intro groups
  induction groups with
  | nil =>
    intro parts cur cc cb res hparts hcb1 hcb2 h
    simp only [splitByBytesLoop] at h
    split at h
    · have hres : parts = res := by simpa using h
      subst hres
      exact hparts
    · have hres : parts ++ [mkBytePart ctx.baseConfig.output.filePath (parts.length + 1) cc cb cur] = res := by
        simpa using h
      subst hres
      intro p hp
      rcases List.mem_append.mp hp with hp | hp
      · exact hparts p hp
      · rcases List.mem_singleton.mp hp with rfl
        exact ⟨by simpa [mkBytePart] using hcb1, by simpa [mkBytePart] using hcb2⟩
  | cons g rest ih =>
    intro parts cur cc cb res hparts hcb1 hcb2 h
    simp only [splitByBytesLoop] at h
    split at h
    case isTrue h1 => exact ih _ _ _ _ _ hparts h1 rfl h
    case isFalse h1 =>
      split at h
      case isTrue h2 => exact absurd h (by simp)
      case isFalse h2 =>
        split at h
        case isTrue h3 => exact absurd h (by simp)
        case isFalse h3 =>
          refine ih _ _ _ _ _ ?_ (not_lt.mp h3) rfl h
          intro p hp
          rcases List.mem_append.mp hp with hp | hp
          · exact hparts p hp
          · rcases List.mem_singleton.mp hp with rfl
            exact ⟨by simpa [mkBytePart] using hcb1, by simpa [mkBytePart] using hcb2⟩

/-- C3: every part returned by a succeeding byte-mode split has UTF-8
byte length at most the byte budget, and its recorded `byteLength`
equals the measured UTF-8 length of its content. -/
theorem generateSplitOutputPartsByBytes_within_budget (gen : GenerateOutputFn)
    (rd : List String) (cfg : RepomixConfigMerged) (pf : List ProcessedFile)
    (afp : List String) (maxB : Nat) (d : Option GitDiffResult) (l : Option GitLogResult)
    (parts : List OutputSplitPart)
    (h : generateSplitOutputPartsByBytes gen rd cfg pf afp maxB d l = .ok parts) :
    ∀ p ∈ parts, p.byteLength ≤ maxB ∧ p.byteLength = getUtf8ByteLength p.content := by
  simp only [generateSplitOutputPartsByBytes] at h
  split at h
  · have hres : ([] : List OutputSplitPart) = parts := by simpa using h
    subst hres
    intro p hp
    simp at hp
  · exact splitByBytesLoop_parts_bounded _ _ _ _ "" 0 _ (by simp) (Nat.zero_le _) (by decide) h

/-! ## C1 — which files the parts embed -/

theorem groupFiles_append (l1 l2 : List OutputSplitGroup) :
    groupFiles (l1 ++ l2) = groupFiles l1 ++ groupFiles l2 := by
  simp [groupFiles]

theorem splitByBytesLoop_embedded_groups (ctx : ByteSplitCtx) :
    ∀ (groups : List OutputSplitGroup) (parts : List OutputSplitPart)
      (cur : List OutputSplitGroup) (cc : String) (cb : Nat) (res : List OutputSplitPart),
      splitByBytesLoop ctx groups parts cur cc cb = .ok res →
      embeddedGroups res = embeddedGroups parts ++ cur ++ groups := by
  intro groups
  induction groups with
  | nil =>
    intro parts cur cc cb res h
    simp only [splitByBytesLoop] at h
    split at h
    case isTrue hc =>
      have hres : parts = res := by simpa using h
      subst hres
      have hcur : cur = [] := by simpa using hc
      subst hcur
      simp
    case isFalse hc =>
      have hres : parts ++
          [mkBytePart ctx.baseConfig.output.filePath (parts.length + 1) cc cb cur] = res := by
        simpa using h
      subst hres
      simp [embeddedGroups, mkBytePart]
  | cons g rest ih =>
    intro parts cur cc cb res h
    simp only [splitByBytesLoop] at h
    split at h
    case isTrue h1 =>
      rw [ih _ _ _ _ _ h]
      simp
    case isFalse h1 =>
      split at h
      case isTrue h2 => exact absurd h (by simp)
      case isFalse h2 =>
        split at h
        case isTrue h3 => exact absurd h (by simp)
        case isFalse h3 =>
          rw [ih _ _ _ _ _ h]
          simp [embeddedGroups, mkBytePart]

theorem groupFiles_cons (g : OutputSplitGroup) (gs : List OutputSplitGroup) :
    groupFiles (g :: gs) = g.processedFiles ++ groupFiles gs := by
  simp [groupFiles]

theorem groupFiles_insertFile (gs : List OutputSplitGroup) (f : ProcessedFile) :
    (groupFiles (insertFileIntoGroups gs f)).Perm (groupFiles gs ++ [f]) := by
  induction gs with
  | nil => simp [insertFileIntoGroups, groupFiles]
  | cons g gs ih =>
    by_cases h : g.rootEntry = getRootEntry f.path
    · have hins : insertFileIntoGroups (g :: gs) f =
          { g with processedFiles := g.processedFiles ++ [f] } :: gs := by
        simp [insertFileIntoGroups, h]
      rw [hins, groupFiles_cons, groupFiles_cons]
      simp only [List.append_assoc]
      exact List.Perm.append_left _ List.perm_append_comm
    · have hins : insertFileIntoGroups (g :: gs) f = g :: insertFileIntoGroups gs f := by
        simp [insertFileIntoGroups, h]
      rw [hins, groupFiles_cons, groupFiles_cons, List.append_assoc]
      exact List.Perm.append_left _ ih

theorem groupFiles_foldl_insertFile (fs : List ProcessedFile) :
    ∀ gs : List OutputSplitGroup,
      (groupFiles (fs.foldl insertFileIntoGroups gs)).Perm (groupFiles gs ++ fs) := by
  induction fs with
  | nil => intro gs; simp
  | cons f rest ih =>
    intro gs
    simp only [List.foldl_cons]
    refine (ih (insertFileIntoGroups gs f)).trans ?_
    refine (List.Perm.append_right rest (groupFiles_insertFile gs f)).trans ?_
    rw [List.append_assoc]
    simp

theorem insertPathIntoGroups_processedFiles_nil (gs : List OutputSplitGroup) (p : String)
    (h : ∀ g ∈ gs, g.processedFiles = []) :
    ∀ g ∈ insertPathIntoGroups gs p, g.processedFiles = [] := by
  induction gs with
  | nil =>
    intro g hg
    rcases List.mem_singleton.mp hg with rfl
    rfl
  | cons g0 gs ih =>
    intro g hg
    by_cases hc : g0.rootEntry = getRootEntry p
    · simp only [insertPathIntoGroups, if_pos hc] at hg
      rcases List.mem_cons.mp hg with rfl | hg
      · simpa using h g0 (by simp)
      · exact h g (List.mem_cons_of_mem _ hg)
    · simp only [insertPathIntoGroups, if_neg hc] at hg
      rcases List.mem_cons.mp hg with rfl | hg
      · exact h g (by simp)
      · exact ih (fun g' hg' => h g' (List.mem_cons_of_mem _ hg')) g hg

theorem pathGroups_files_nil (afp : List String) :
    ∀ g ∈ afp.foldl insertPathIntoGroups [], g.processedFiles = [] := by
  suffices h : ∀ gs, (∀ g ∈ gs, g.processedFiles = []) →
      ∀ g ∈ afp.foldl insertPathIntoGroups gs, g.processedFiles = [] from h [] (by simp)
  induction afp with
  | nil => intro gs h; simpa using h
  | cons p rest ih =>
    intro gs h
    simp only [List.foldl_cons]
    exact ih _ (insertPathIntoGroups_processedFiles_nil gs p h)

theorem groupFiles_eq_nil (gs : List OutputSplitGroup)
    (h : ∀ g ∈ gs, g.processedFiles = []) : groupFiles gs = [] := by
  induction gs with
  | nil => rfl
  | cons g gs ih =>
    simp only [groupFiles, List.flatMap_cons, h g (by simp), List.nil_append]
    exact ih (fun g' hg' => h g' (List.mem_cons_of_mem _ hg'))

theorem buildOutputSplitGroups_files_perm (pf : List ProcessedFile) (afp : List String) :
    (groupFiles (buildOutputSplitGroups pf afp)).Perm pf := by
  have hsort :=
    List.perm_insertionSort
      (fun a b : OutputSplitGroup => charListLe a.rootEntry.data b.rootEntry.data = true)
      (pf.foldl insertFileIntoGroups (afp.foldl insertPathIntoGroups []))
  have h1 : (groupFiles (buildOutputSplitGroups pf afp)).Perm
      (groupFiles (pf.foldl insertFileIntoGroups (afp.foldl insertPathIntoGroups []))) :=
    hsort.flatMap_right _
  refine h1.trans ?_
  refine (groupFiles_foldl_insertFile pf _).trans ?_
  rw [groupFiles_eq_nil _ (pathGroups_files_nil afp)]
  simp

theorem tokenBinPackLoop_flatten (fileTok : String → Nat) (maxT : Nat) :
    ∀ (files : List ProcessedFile) (pfd : List (List ProcessedFile))
      (cur : List ProcessedFile) (ct : Nat),
      (tokenBinPackLoop fileTok maxT files pfd cur ct).flatten = pfd.flatten ++ cur ++ files := by
  intro files
  induction files with
  | nil =>
    intro pfd cur ct
    simp only [tokenBinPackLoop]
    split
    case isTrue h =>
      have hcur : cur = [] := by simpa using h
      subst hcur
      simp
    case isFalse h => simp
  | cons f rest ih =>
    intro pfd cur ct
    simp only [tokenBinPackLoop]
    split
    case isTrue h1 =>
      split
      case isTrue h2 =>
        have hcur : cur = [] := by simpa using h2
        subst hcur
        rw [ih]
        simp
      case isFalse h2 =>
        rw [ih]
        simp
    case isFalse h1 =>
      split
      case isTrue h2 =>
        rw [ih]
        simp
      case isFalse h2 =>
        rw [ih]
        simp

/-- C1 (amended): on byte-mode success the files embedded in the parts,
taken in part order, are exactly the files of the lexicographically
sorted root-entry groups — a permutation of the selected-files list in
which each selected file occurs exactly once (input order is kept
inside each root-entry group, while across groups the order is the
sorted root-entry order); in token mode the concatenation of the
pending batches is exactly the selected-files list. -/
theorem split_parts_embed_selected_files (gen : GenerateOutputFn) (tc : String → Nat)
    (rd : List String) (cfg : RepomixConfigMerged) (pf : List ProcessedFile)
    (afp : List String) (maxB maxT : Nat) (d : Option GitDiffResult)
    (l : Option GitLogResult) :
    (∀ res, generateSplitOutputPartsByBytes gen rd cfg pf afp maxB d l = .ok res →
      groupFiles (embeddedGroups res) = groupFiles (buildOutputSplitGroups pf afp)) ∧
    (groupFiles (buildOutputSplitGroups pf afp)).Perm pf ∧
    (tokenBinPackLoop (fileTokenLookup tc pf) maxT pf [] [] 0).flatten = pf := by
  refine ⟨?_, buildOutputSplitGroups_files_perm pf afp, by rw [tokenBinPackLoop_flatten]; simp⟩
  intro res h
  simp only [generateSplitOutputPartsByBytes] at h
  split at h
  case isTrue hc =>
    have hres : ([] : List OutputSplitPart) = res := by simpa using h
    subst hres
    have hg : buildOutputSplitGroups pf afp = [] := by simpa using hc
    rw [hg]
    rfl
  case isFalse hc =>
    have hg := splitByBytesLoop_embedded_groups _ _ _ _ _ _ _ h
    simp only [embeddedGroups, List.flatMap_nil, List.nil_append] at hg
    simp only [embeddedGroups]
    rw [hg]

/-- C1 counterexample: selected files `[b/x, a/y]` come back on byte-mode
success as `[a/y, b/x]` — the across-parts concatenation follows sorted
root entries, not the original relative input order. -/
theorem split_parts_input_order_counterexample :
    (generateSplitOutputPartsByBytes (fun _ _ _ _ _ _ _ => "x") ["/r"]
        ⟨⟨"o.xml", "xml", ⟨false, false, false⟩⟩, "e"⟩
        [⟨"b/x", "1"⟩, ⟨"a/y", "2"⟩] ["b/x", "a/y"] 1000 none none).map
        (fun ps => groupFiles (embeddedGroups ps)) =
      .ok [⟨"a/y", "2"⟩, ⟨"b/x", "1"⟩] ∧
    [(⟨"a/y", "2"⟩ : ProcessedFile), ⟨"b/x", "1"⟩] ≠ [⟨"b/x", "1"⟩, ⟨"a/y", "2"⟩] :=
  ⟨by decide, by decide⟩

/-! ## C4 — exact verification of committed token parts -/

theorem tokenRenderLoop_ok_parts (ctx : TokenSplitCtx) :
    ∀ (batches : List (List ProcessedFile)) (i : Nat) (parts res : List OutputSplitPart),
      tokenRenderLoop ctx batches i parts = .ok res →
      ∃ newParts, res = parts ++ newParts ∧
        List.Forall₂ (fun (b : List ProcessedFile) (p : OutputSplitPart) =>
          b.length = 1 → p.tokenCount ≤ ctx.maxTokensPerPart) batches newParts := by
  intro batches
  induction batches with
  | nil =>
    intro i parts res h
    simp only [tokenRenderLoop] at h
    have hres : parts = res := by simpa using h
    subst hres
    exact ⟨[], by simp, List.Forall₂.nil⟩
  | cons files rest ih =>
    intro i parts res h
    simp only [tokenRenderLoop] at h
    split at h
    case isTrue hc => exact absurd h (by simp)
    case isFalse hc =>
      obtain ⟨newParts, hres, hfa⟩ := ih _ _ _ h
      refine ⟨{ index := i + 1,
                filePath := buildSplitOutputFilePath ctx.baseConfig.output.filePath (i + 1),
                content := tokenPartContent ctx files (i + 1),
                byteLength := getUtf8ByteLength (tokenPartContent ctx files (i + 1)),
                tokenCount := ctx.tokenCounter (tokenPartContent ctx files (i + 1)),
                groups := none } :: newParts, by simp [hres], ?_⟩
      refine List.Forall₂.cons ?_ hfa
      intro hlen
      by_contra hover
      exact hc ⟨hlen, lt_of_not_le hover⟩

/-- C4 (amended): on token-mode success the parts correspond one-to-one,
in order, to the pending batches, and every part coming from a batch of
exactly one file has exact token count within the token budget;
multi-file batches are not exactly re-verified (see the
counterexample, where a committed two-file part measures over
budget). -/
theorem tokens_single_file_parts_within_budget (gen : GenerateOutputFn) (tc : String → Nat)
    (rd : List String) (cfg : RepomixConfigMerged) (pf : List ProcessedFile)
    (afp : List String) (maxT : Nat) (d : Option GitDiffResult) (l : Option GitLogResult)
    (parts : List OutputSplitPart)
    (h : generateSplitOutputPartsByTokens gen tc rd cfg pf afp maxT d l = .ok parts) :
    List.Forall₂ (fun (b : List ProcessedFile) (p : OutputSplitPart) =>
        b.length = 1 → p.tokenCount ≤ maxT)
      (tokenBinPackLoop (fileTokenLookup tc pf) maxT pf [] [] 0) parts := by
  simp only [generateSplitOutputPartsByTokens] at h
  obtain ⟨newParts, hres, hfa⟩ := tokenRenderLoop_ok_parts _ _ _ _ _ h
  subst hres
  simpa using hfa

set_option maxRecDepth 8000 in
/-- C4 counterexample: two files whose estimates fit a single batch, a
renderer whose output measures 200 tokens, and budget 100 — the
operation succeeds and commits a multi-file part whose exact token
count 200 exceeds the budget. -/
theorem tokens_multi_file_over_budget_counterexample :
    (generateSplitOutputPartsByTokens (fun _ _ _ _ _ _ _ => String.mk (List.replicate 200 'z'))
        (fun s => s.length) ["/t"] ⟨⟨"out.xml", "xml", ⟨false, false, false⟩⟩, "enc"⟩
        [⟨"a", "x"⟩, ⟨"b", "y"⟩] ["a", "b"] 100 none none).map
        (fun ps => ps.map (fun p => p.tokenCount)) = .ok [200] ∧
    ¬(200 ≤ 100) :=
  ⟨by decide, by decide⟩

/-! ## C5 — the token-mode error -/

theorem tokenRenderLoop_error_char (ctx : TokenSplitCtx) :
    ∀ (batches : List (List ProcessedFile)) (i : Nat) (parts : List OutputSplitPart),
      ((∃ e, tokenRenderLoop ctx batches i parts = .error e) ↔
        ∃ j, j < batches.length ∧ (batches.getD j []).length = 1 ∧
          ctx.maxTokensPerPart <
            ctx.tokenCounter (tokenPartContent ctx (batches.getD j []) (i + j + 1))) ∧
      (∀ e, tokenRenderLoop ctx batches i parts = .error e →
        ∃ j f, j < batches.length ∧ batches.getD j [] = [f] ∧
          ctx.maxTokensPerPart < ctx.tokenCounter (tokenPartContent ctx [f] (i + j + 1)) ∧
          e = .fileExceedsMaxTokens f.path
            (ctx.tokenCounter (tokenPartContent ctx [f] (i + j + 1))) ctx.maxTokensPerPart) := by
  intro batches
  induction batches with
  | nil =>
    intro i parts
    constructor
    · simp [tokenRenderLoop]
    · intro e h
      simp [tokenRenderLoop] at h
  | cons files rest ih =>
    intro i parts
    by_cases hc : files.length = 1 ∧
        ctx.maxTokensPerPart < ctx.tokenCounter (tokenPartContent ctx files (i + 1))
    · have hloop : tokenRenderLoop ctx (files :: rest) i parts =
          .error (.fileExceedsMaxTokens (files.headD ⟨"", ""⟩).path
            (ctx.tokenCounter (tokenPartContent ctx files (i + 1))) ctx.maxTokensPerPart) := by
        simp only [tokenRenderLoop]
        rw [if_pos hc]
      obtain ⟨hlen, hover⟩ := hc
      obtain ⟨f, rfl⟩ := List.length_eq_one.mp hlen
      refine ⟨⟨fun _ => ⟨0, by simp, by simp, by simpa using hover⟩, fun _ => ⟨_, hloop⟩⟩, ?_⟩
      intro e he
      rw [hloop] at he
      have he' : RepomixError.fileExceedsMaxTokens f.path
          (ctx.tokenCounter (tokenPartContent ctx [f] (i + 1))) ctx.maxTokensPerPart = e := by
        simpa using he
      exact ⟨0, f, by simp, by simp, by simpa using hover, by simpa using he'.symm⟩
    · have hloop : tokenRenderLoop ctx (files :: rest) i parts =
          tokenRenderLoop ctx rest (i + 1)
            (parts ++
              [{ index := i + 1,
                 filePath := buildSplitOutputFilePath ctx.baseConfig.output.filePath (i + 1),
                 content := tokenPartContent ctx files (i + 1),
                 byteLength := getUtf8ByteLength (tokenPartContent ctx files (i + 1)),
                 tokenCount := ctx.tokenCounter (tokenPartContent ctx files (i + 1)),
                 groups := none }]) := by
        simp only [tokenRenderLoop]
        rw [if_neg hc]
      obtain ⟨ih1, ih2⟩ := ih (i + 1)
        (parts ++
          [{ index := i + 1,
             filePath := buildSplitOutputFilePath ctx.baseConfig.output.filePath (i + 1),
             content := tokenPartContent ctx files (i + 1),
             byteLength := getUtf8ByteLength (tokenPartContent ctx files (i + 1)),
             tokenCount := ctx.tokenCounter (tokenPartContent ctx files (i + 1)),
             groups := none }])
      constructor
      · rw [hloop, ih1]
        constructor
        · rintro ⟨j, hj, hlen, hover⟩
          refine ⟨j + 1, by simpa using hj, by simpa using hlen, ?_⟩
          have harith : i + 1 + j + 1 = i + (j + 1) + 1 := by omega
          rw [harith] at hover
          simpa using hover
        · rintro ⟨j, hj, hlen, hover⟩
          cases j with
          | zero =>
            exact absurd ⟨by simpa using hlen, by simpa using hover⟩ hc
          | succ k =>
            refine ⟨k, by simpa using hj, by simpa using hlen, ?_⟩
            have harith : i + (k + 1) + 1 = i + 1 + k + 1 := by omega
            rw [harith] at hover
            simpa using hover
      · intro e he
        rw [hloop] at he
        obtain ⟨j, f, hj, hjf, hover, he'⟩ := ih2 e he
        have harith : i + 1 + j + 1 = i + (j + 1) + 1 := by omega
        rw [harith] at hover he'
        exact ⟨j + 1, f, by simpa using hj, by simpa using hjf, hover, he'⟩

/-- C5: token mode raises an error exactly when some pending batch
containing exactly one file renders to an exact token count over the
token budget; the error names that file's path and the measured and
limit token counts (so a batch of more than one file never triggers
it), and an error result carries no parts. -/
theorem generateSplitOutputPartsByTokens_error_iff (gen : GenerateOutputFn)
    (tc : String → Nat) (rd : List String) (cfg : RepomixConfigMerged)
    (pf : List ProcessedFile) (afp : List String) (maxT : Nat)
    (d : Option GitDiffResult) (l : Option GitLogResult) :
    ((∃ e, generateSplitOutputPartsByTokens gen tc rd cfg pf afp maxT d l = .error e) ↔
      ∃ j, j < (tokenBinPackLoop (fileTokenLookup tc pf) maxT pf [] [] 0).length ∧
        ((tokenBinPackLoop (fileTokenLookup tc pf) maxT pf [] [] 0).getD j []).length = 1 ∧
        maxT < tc (tokenPartContent
          ⟨gen, tc, rd, cfg, afp, d, l, maxT,
            (tokenBinPackLoop (fileTokenLookup tc pf) maxT pf [] [] 0).length⟩
          ((tokenBinPackLoop (fileTokenLookup tc pf) maxT pf [] [] 0).getD j []) (j + 1))) ∧
    (∀ e, generateSplitOutputPartsByTokens gen tc rd cfg pf afp maxT d l = .error e →
      ∃ j f, j < (tokenBinPackLoop (fileTokenLookup tc pf) maxT pf [] [] 0).length ∧
        (tokenBinPackLoop (fileTokenLookup tc pf) maxT pf [] [] 0).getD j [] = [f] ∧
        maxT < tc (tokenPartContent
          ⟨gen, tc, rd, cfg, afp, d, l, maxT,
            (tokenBinPackLoop (fileTokenLookup tc pf) maxT pf [] [] 0).length⟩ [f] (j + 1)) ∧
        e = .fileExceedsMaxTokens f.path
          (tc (tokenPartContent
            ⟨gen, tc, rd, cfg, afp, d, l, maxT,
              (tokenBinPackLoop (fileTokenLookup tc pf) maxT pf [] [] 0).length⟩ [f] (j + 1)))
          maxT) := by
  obtain ⟨h1, h2⟩ := tokenRenderLoop_error_char
    ⟨gen, tc, rd, cfg, afp, d, l, maxT,
      (tokenBinPackLoop (fileTokenLookup tc pf) maxT pf [] [] 0).length⟩
    (tokenBinPackLoop (fileTokenLookup tc pf) maxT pf [] [] 0) 0 []
  constructor
  · simpa [generateSplitOutputPartsByTokens] using h1
  · intro e he
    simpa using h2 e (by simpa [generateSplitOutputPartsByTokens] using he)

/-! ## C7 — the grouping function -/

theorem insertPathIntoGroups_roots (gs : List OutputSplitGroup) (p : String) :
    (insertPathIntoGroups gs p).map (·.rootEntry) =
      if getRootEntry p ∈ gs.map (·.rootEntry) then gs.map (·.rootEntry)
      else gs.map (·.rootEntry) ++ [getRootEntry p] := by
  induction gs with
  | nil => simp [insertPathIntoGroups]
  | cons g gs ih =>
    by_cases h : g.rootEntry = getRootEntry p
    · simp [insertPathIntoGroups, h]
    · have hne : getRootEntry p ≠ g.rootEntry := fun hh => h hh.symm
      simp only [insertPathIntoGroups, if_neg h, List.map_cons, ih, List.mem_cons]
      by_cases hm : getRootEntry p ∈ gs.map (·.rootEntry)
      · simp [hm, hne]
      · simp [hm, hne]

theorem insertFileIntoGroups_roots (gs : List OutputSplitGroup) (f : ProcessedFile) :
    (insertFileIntoGroups gs f).map (·.rootEntry) =
      if getRootEntry f.path ∈ gs.map (·.rootEntry) then gs.map (·.rootEntry)
      else gs.map (·.rootEntry) ++ [getRootEntry f.path] := by
  induction gs with
  | nil => simp [insertFileIntoGroups]
  | cons g gs ih =>
    by_cases h : g.rootEntry = getRootEntry f.path
    · simp [insertFileIntoGroups, h]
    · have hne : getRootEntry f.path ≠ g.rootEntry := fun hh => h hh.symm
      simp only [insertFileIntoGroups, if_neg h, List.map_cons, ih, List.mem_cons]
      by_cases hm : getRootEntry f.path ∈ gs.map (·.rootEntry)
      · simp [hm, hne]
      · simp [hm, hne]

theorem insertPathIntoGroups_mem_roots (gs : List OutputSplitGroup) (p : String) (r : String) :
    r ∈ (insertPathIntoGroups gs p).map (·.rootEntry) ↔
      r ∈ gs.map (·.rootEntry) ∨ r = getRootEntry p := by
  rw [insertPathIntoGroups_roots]
  by_cases h : getRootEntry p ∈ gs.map (·.rootEntry)
  · rw [if_pos h]
    exact ⟨Or.inl, fun hr => hr.elim id (fun he => he ▸ h)⟩
  · rw [if_neg h]
    simp [List.mem_append]

theorem insertFileIntoGroups_mem_roots (gs : List OutputSplitGroup) (f : ProcessedFile)
    (r : String) :
    r ∈ (insertFileIntoGroups gs f).map (·.rootEntry) ↔
      r ∈ gs.map (·.rootEntry) ∨ r = getRootEntry f.path := by
  rw [insertFileIntoGroups_roots]
  by_cases h : getRootEntry f.path ∈ gs.map (·.rootEntry)
  · rw [if_pos h]
    exact ⟨Or.inl, fun hr => hr.elim id (fun he => he ▸ h)⟩
  · rw [if_neg h]
    simp [List.mem_append]

theorem filter_path_eq_nil (paths : List String) (r : String)
    (h : r ∉ paths.map getRootEntry) :
    paths.filter (fun q => getRootEntry q = r) = [] := by
  rw [List.filter_eq_nil_iff]
  intro q hq
  simp only [decide_eq_true_iff]
  intro hqr
  exact h (List.mem_map.mpr ⟨q, hq, hqr⟩)

theorem filter_file_eq_nil (fs : List ProcessedFile) (r : String)
    (h : r ∉ fs.map (fun f => getRootEntry f.path)) :
    fs.filter (fun f => getRootEntry f.path = r) = [] := by
  rw [List.filter_eq_nil_iff]
  intro q hq
  simp only [decide_eq_true_iff]
  intro hqr
  exact h (List.mem_map.mpr ⟨q, hq, hqr⟩)

theorem insertPathIntoGroups_allFilePaths (gs : List OutputSplitGroup) (paths : List String)
    (p : String)
    (hnd : (gs.map (·.rootEntry)).Nodup)
    (hall : ∀ g ∈ gs, g.allFilePaths = paths.filter (fun q => getRootEntry q = g.rootEntry))
    (hnew : getRootEntry p ∉ gs.map (·.rootEntry) →
      paths.filter (fun q => getRootEntry q = getRootEntry p) = []) :
    ∀ g' ∈ insertPathIntoGroups gs p,
      g'.allFilePaths = (paths ++ [p]).filter (fun q => getRootEntry q = g'.rootEntry) := by
  induction gs with
  | nil =>
    intro g' hg'
    rcases List.mem_singleton.mp hg' with rfl
    simp [List.filter_append, hnew (by simp)]
  | cons g gs ih =>
    intro g' hg'
    by_cases h : g.rootEntry = getRootEntry p
    · simp only [insertPathIntoGroups, if_pos h] at hg'
      rcases List.mem_cons.mp hg' with rfl | hg'
      · rw [List.filter_append]
        have hg := hall g (by simp)
        simp only [hg]
        simp [h]
      · have hg'ne : g'.rootEntry ≠ getRootEntry p := by
          intro hh
          have hmem : g.rootEntry ∈ gs.map (·.rootEntry) := by
            rw [h, ← hh]
            exact List.mem_map_of_mem _ hg'
          exact (List.nodup_cons.mp hnd).1 hmem
        rw [hall g' (List.mem_cons_of_mem _ hg'), List.filter_append]
        have : getRootEntry p ≠ g'.rootEntry := fun hh => hg'ne hh.symm
        simp [this]
    · simp only [insertPathIntoGroups, if_neg h] at hg'
      rcases List.mem_cons.mp hg' with rfl | hg'
      · rw [hall g' (by simp), List.filter_append]
        have : getRootEntry p ≠ g'.rootEntry := fun hh => h hh.symm
        simp [this]
      · refine ih (List.nodup_cons.mp hnd).2
          (fun g0 hg0 => hall g0 (List.mem_cons_of_mem _ hg0)) ?_ g' hg'
        intro hnot
        refine hnew ?_
        simp only [List.map_cons, List.mem_cons]
        rintro (heq | hmem)
        · exact h heq.symm
        · exact hnot hmem

theorem insertFileIntoGroups_processedFiles (gs : List OutputSplitGroup)
    (fs : List ProcessedFile) (f : ProcessedFile)
    (hnd : (gs.map (·.rootEntry)).Nodup)
    (hall : ∀ g ∈ gs, g.processedFiles = fs.filter (fun x => getRootEntry x.path = g.rootEntry))
    (hnew : getRootEntry f.path ∉ gs.map (·.rootEntry) →
      fs.filter (fun x => getRootEntry x.path = getRootEntry f.path) = []) :
    ∀ g' ∈ insertFileIntoGroups gs f,
      g'.processedFiles = (fs ++ [f]).filter (fun x => getRootEntry x.path = g'.rootEntry) := by
  induction gs with
  | nil =>
    intro g' hg'
    rcases List.mem_singleton.mp hg' with rfl
    simp [List.filter_append, hnew (by simp)]
  | cons g gs ih =>
    intro g' hg'
    by_cases h : g.rootEntry = getRootEntry f.path
    · simp only [insertFileIntoGroups, if_pos h] at hg'
      rcases List.mem_cons.mp hg' with rfl | hg'
      · rw [List.filter_append]
        have hg := hall g (by simp)
        simp only [hg]
        simp [h]
      · have hg'ne : g'.rootEntry ≠ getRootEntry f.path := by
          intro hh
          have hmem : g.rootEntry ∈ gs.map (·.rootEntry) := by
            rw [h, ← hh]
            exact List.mem_map_of_mem _ hg'
          exact (List.nodup_cons.mp hnd).1 hmem
        rw [hall g' (List.mem_cons_of_mem _ hg'), List.filter_append]
        have : getRootEntry f.path ≠ g'.rootEntry := fun hh => hg'ne hh.symm
        simp [this]
    · simp only [insertFileIntoGroups, if_neg h] at hg'
      rcases List.mem_cons.mp hg' with rfl | hg'
      · rw [hall g' (by simp), List.filter_append]
        have : getRootEntry f.path ≠ g'.rootEntry := fun hh => h hh.symm
        simp [this]
      · refine ih (List.nodup_cons.mp hnd).2
          (fun g0 hg0 => hall g0 (List.mem_cons_of_mem _ hg0)) ?_ g' hg'
        intro hnot
        refine hnew ?_
        simp only [List.map_cons, List.mem_cons]
        rintro (heq | hmem)
        · exact h heq.symm
        · exact hnot hmem

theorem insertFileIntoGroups_allFilePaths_of_mem (gs : List OutputSplitGroup)
    (f : ProcessedFile) (h : getRootEntry f.path ∈ gs.map (·.rootEntry)) :
    ∀ g' ∈ insertFileIntoGroups gs f,
      ∃ g ∈ gs, g'.rootEntry = g.rootEntry ∧ g'.allFilePaths = g.allFilePaths := by
  induction gs with
  | nil => simp at h
  | cons g gs ih =>
    intro g' hg'
    by_cases hc : g.rootEntry = getRootEntry f.path
    · simp only [insertFileIntoGroups, if_pos hc] at hg'
      rcases List.mem_cons.mp hg' with rfl | hg'
      · exact ⟨g, by simp, rfl, rfl⟩
      · exact ⟨g', List.mem_cons_of_mem _ hg', rfl, rfl⟩
    · simp only [insertFileIntoGroups, if_neg hc] at hg'
      rcases List.mem_cons.mp hg' with rfl | hg'
      · exact ⟨g', by simp, rfl, rfl⟩
      · rw [List.map_cons] at h
        have hmem : getRootEntry f.path ∈ gs.map (·.rootEntry) := by
          rcases List.mem_cons.mp h with heq | hmem
          · exact absurd heq.symm hc
          · exact hmem
        obtain ⟨g0, hg0, h1, h2⟩ := ih hmem g' hg'
        exact ⟨g0, List.mem_cons_of_mem _ hg0, h1, h2⟩

theorem pathGroups_inv (paths : List String) :
    ∀ (sofar : List String) (gs : List OutputSplitGroup),
      (gs.map (·.rootEntry)).Nodup →
      (∀ r, r ∈ gs.map (·.rootEntry) ↔ r ∈ sofar.map getRootEntry) →
      (∀ g ∈ gs, g.allFilePaths = sofar.filter (fun q => getRootEntry q = g.rootEntry)) →
      ((((paths.foldl insertPathIntoGroups gs).map (·.rootEntry)).Nodup) ∧
        (∀ r, r ∈ (paths.foldl insertPathIntoGroups gs).map (·.rootEntry) ↔
          r ∈ (sofar ++ paths).map getRootEntry) ∧
        (∀ g ∈ paths.foldl insertPathIntoGroups gs,
          g.allFilePaths = (sofar ++ paths).filter (fun q => getRootEntry q = g.rootEntry))) := by
  induction paths with
  | nil =>
    intro sofar gs hnd hmem hall
    exact ⟨hnd, by simpa using hmem, by simpa using hall⟩
  | cons p rest ih =>
    intro sofar gs hnd hmem hall
    have hnd' : ((insertPathIntoGroups gs p).map (·.rootEntry)).Nodup := by
      rw [insertPathIntoGroups_roots]
      by_cases h : getRootEntry p ∈ gs.map (·.rootEntry)
      · rwa [if_pos h]
      · rw [if_neg h]
        simp [List.nodup_append, hnd, h]
    have hmem' : ∀ r, r ∈ (insertPathIntoGroups gs p).map (·.rootEntry) ↔
        r ∈ (sofar ++ [p]).map getRootEntry := by
      intro r
      rw [insertPathIntoGroups_mem_roots, hmem r]
      simp [List.mem_append]
    have hall' : ∀ g ∈ insertPathIntoGroups gs p,
        g.allFilePaths = (sofar ++ [p]).filter (fun q => getRootEntry q = g.rootEntry) := by
      refine insertPathIntoGroups_allFilePaths gs sofar p hnd hall ?_
      intro hnot
      refine filter_path_eq_nil sofar _ ?_
      intro hin
      exact hnot ((hmem _).mpr hin)
    have := ih (sofar ++ [p]) (insertPathIntoGroups gs p) hnd' hmem' hall'
    simpa [List.append_assoc] using this

theorem allGroups_inv (pf : List ProcessedFile) :
    ∀ (sofar : List ProcessedFile) (afp : List String) (gs : List OutputSplitGroup),
      (gs.map (·.rootEntry)).Nodup →
      (∀ r, r ∈ gs.map (·.rootEntry) ↔
        (r ∈ afp.map getRootEntry ∨ r ∈ sofar.map (fun f => getRootEntry f.path))) →
      (∀ g ∈ gs, g.processedFiles = sofar.filter (fun x => getRootEntry x.path = g.rootEntry)) →
      ((∀ f ∈ sofar, getRootEntry f.path ∈ afp.map getRootEntry) →
        ∀ g ∈ gs, g.allFilePaths = afp.filter (fun q => getRootEntry q = g.rootEntry)) →
      ((((pf.foldl insertFileIntoGroups gs).map (·.rootEntry)).Nodup) ∧
        (∀ r, r ∈ (pf.foldl insertFileIntoGroups gs).map (·.rootEntry) ↔
          (r ∈ afp.map getRootEntry ∨ r ∈ (sofar ++ pf).map (fun f => getRootEntry f.path))) ∧
        (∀ g ∈ pf.foldl insertFileIntoGroups gs,
          g.processedFiles = (sofar ++ pf).filter (fun x => getRootEntry x.path = g.rootEntry)) ∧
        ((∀ f ∈ sofar ++ pf, getRootEntry f.path ∈ afp.map getRootEntry) →
          ∀ g ∈ pf.foldl insertFileIntoGroups gs,
            g.allFilePaths = afp.filter (fun q => getRootEntry q = g.rootEntry))) := by
  induction pf with
  | nil =>
    intro sofar afp gs hnd hmem hfiles hpaths
    exact ⟨hnd, by simpa using hmem, by simpa using hfiles, by simpa using hpaths⟩
  | cons f rest ih =>
    intro sofar afp gs hnd hmem hfiles hpaths
    have hnd' : ((insertFileIntoGroups gs f).map (·.rootEntry)).Nodup := by
      rw [insertFileIntoGroups_roots]
      by_cases h : getRootEntry f.path ∈ gs.map (·.rootEntry)
      · rwa [if_pos h]
      · rw [if_neg h]
        simp [List.nodup_append, hnd, h]
    have hmem' : ∀ r, r ∈ (insertFileIntoGroups gs f).map (·.rootEntry) ↔
        (r ∈ afp.map getRootEntry ∨ r ∈ (sofar ++ [f]).map (fun x => getRootEntry x.path)) := by
      intro r
      rw [insertFileIntoGroups_mem_roots, hmem r]
      simp only [List.map_append, List.mem_append, List.map_cons, List.map_nil,
        List.mem_singleton, List.mem_cons]
      constructor
      · rintro ((h1 | h2) | h3)
        · exact Or.inl h1
        · exact Or.inr (Or.inl h2)
        · exact Or.inr (Or.inr (by simpa using h3))
      · rintro (h1 | (h2 | h3))
        · exact Or.inl (Or.inl h1)
        · exact Or.inl (Or.inr h2)
        · exact Or.inr (by simpa using h3)
    have hfiles' : ∀ g ∈ insertFileIntoGroups gs f,
        g.processedFiles = (sofar ++ [f]).filter (fun x => getRootEntry x.path = g.rootEntry) := by
      refine insertFileIntoGroups_processedFiles gs sofar f hnd hfiles ?_
      intro hnot
      refine filter_file_eq_nil sofar _ ?_
      intro hin
      exact hnot ((hmem _).mpr (Or.inr hin))
    have hpaths' : (∀ x ∈ sofar ++ [f], getRootEntry x.path ∈ afp.map getRootEntry) →
        ∀ g ∈ insertFileIntoGroups gs f,
          g.allFilePaths = afp.filter (fun q => getRootEntry q = g.rootEntry) := by
      intro hsub g' hg'
      have hsofar : ∀ x ∈ sofar, getRootEntry x.path ∈ afp.map getRootEntry := by
        intro x hx
        exact hsub x (List.mem_append.mpr (Or.inl hx))
      have hfroot : getRootEntry f.path ∈ gs.map (·.rootEntry) :=
        (hmem _).mpr (Or.inl (hsub f (List.mem_append.mpr (Or.inr (by simp)))))
      obtain ⟨g0, hg0, he1, he2⟩ := insertFileIntoGroups_allFilePaths_of_mem gs f hfroot g' hg'
      rw [he2, hpaths hsofar g0 hg0, he1]
    have := ih (sofar ++ [f]) afp (insertFileIntoGroups gs f) hnd' hmem' hfiles' hpaths'
    simpa [List.append_assoc] using this

theorem charListLe_iff_not_lt : ∀ as bs : List Char, charListLe as bs = true ↔ ¬ bs < as
  | [], bs => by
    simp only [charListLe]
    constructor
    · intro _ h
      cases h
    · intro _
      trivial
  | a :: as, [] => by
    simp only [charListLe]
    constructor
    · intro h
      cases h
    · intro h
      exact absurd List.Lex.nil h
  | a :: as, b :: bs => by
    by_cases hab : a = b
    · subst hab
      have hstep : charListLe (a :: as) (a :: bs) = charListLe as bs := by
        simp [charListLe]
      rw [hstep, charListLe_iff_not_lt as bs]
      constructor
      · intro h hlt
        cases hlt with
        | cons h' => exact h h'
        | rel h' => exact absurd h' (lt_irrefl a)
      · intro h hlt
        exact h (List.Lex.cons hlt)
    · simp only [charListLe, if_neg hab]
      constructor
      · intro h hlt
        have hab' : a < b := of_decide_eq_true h
        cases hlt with
        | cons h' => exact hab rfl
        | rel h' => exact absurd h' (asymm hab')
      · intro h
        rw [decide_eq_true_iff]
        rcases lt_trichotomy a b with hlt | heq | hgt
        · exact hlt
        · exact absurd heq hab
        · exact absurd (List.Lex.rel hgt) h

theorem charListLe_iff_le (s t : String) : charListLe s.data t.data = true ↔ s ≤ t := by
  rw [charListLe_iff_not_lt]
  constructor
  · intro h hlt
    exact h (String.lt_iff_toList_lt.mp hlt)
  · intro h hlt
    exact h (String.lt_iff_toList_lt.mpr hlt)

/-- C7 (amended): grouping is a pure function of its two inputs with
exactly one group per distinct root entry present in either list: group
root entries are duplicate-free and are exactly the roots occurring in
the all-paths list or among the selected files; every group's selected
files are exactly the selected files with that root, in input order;
provided every selected file's root occurs among the all-paths roots
(in particular whenever the selected paths are a subset of the
all-paths list) every group's all-paths list is exactly the all-paths
entries with that root; and groups are sorted by root-entry order (for
a selected file under a root absent from the all-paths list, the code
instead seeds that group's all-paths with the file's own path — the
counterexample). -/
theorem buildOutputSplitGroups_spec (pf : List ProcessedFile) (afp : List String) :
    ((buildOutputSplitGroups pf afp).map (·.rootEntry)).Nodup ∧
    (∀ r, r ∈ (buildOutputSplitGroups pf afp).map (·.rootEntry) ↔
      (r ∈ afp.map getRootEntry ∨ r ∈ pf.map (fun f => getRootEntry f.path))) ∧
    (∀ g ∈ buildOutputSplitGroups pf afp,
      g.processedFiles = pf.filter (fun x => getRootEntry x.path = g.rootEntry)) ∧
    ((∀ f ∈ pf, getRootEntry f.path ∈ afp.map getRootEntry) →
      ∀ g ∈ buildOutputSplitGroups pf afp,
        g.allFilePaths = afp.filter (fun q => getRootEntry q = g.rootEntry)) ∧
    List.Sorted (fun a b : OutputSplitGroup => a.rootEntry ≤ b.rootEntry)
      (buildOutputSplitGroups pf afp) := by
  obtain ⟨hnd1, hmem1, hall1⟩ := pathGroups_inv afp [] [] (by simp) (by simp) (by simp)
  have hfiles1 : ∀ g ∈ afp.foldl insertPathIntoGroups [], g.processedFiles = [] :=
    pathGroups_files_nil afp
  obtain ⟨hnd2, hmem2, hfiles2, hall2⟩ :=
    allGroups_inv pf [] afp (afp.foldl insertPathIntoGroups []) hnd1
      (fun r => by rw [hmem1 r]; simp)
      (fun g hg => by rw [hfiles1 g hg]; simp)
      (fun _ => by simpa using hall1)
  have hperm : (buildOutputSplitGroups pf afp).Perm
      (pf.foldl insertFileIntoGroups (afp.foldl insertPathIntoGroups [])) :=
    List.perm_insertionSort _ _
  have hmemiff : ∀ g : OutputSplitGroup, g ∈ buildOutputSplitGroups pf afp ↔
      g ∈ pf.foldl insertFileIntoGroups (afp.foldl insertPathIntoGroups []) :=
    fun g => hperm.mem_iff
  refine ⟨?_, ?_, ?_, ?_, ?_⟩
  · exact ((hperm.map (·.rootEntry)).nodup_iff).mpr hnd2
  · intro r
    rw [(hperm.map (·.rootEntry)).mem_iff, hmem2 r]
    simp
  · intro g hg
    have := hfiles2 g ((hmemiff g).mp hg)
    simpa using this
  · intro hsub g hg
    exact hall2 (by simpa using hsub) g ((hmemiff g).mp hg)
  · haveI htotal : IsTotal OutputSplitGroup
        (fun a b => charListLe a.rootEntry.data b.rootEntry.data = true) := by
      refine ⟨fun a b => ?_⟩
      rcases le_total a.rootEntry b.rootEntry with h | h
      · exact Or.inl ((charListLe_iff_le _ _).mpr h)
      · exact Or.inr ((charListLe_iff_le _ _).mpr h)
    haveI htrans : IsTrans OutputSplitGroup
        (fun a b => charListLe a.rootEntry.data b.rootEntry.data = true) := by
      refine ⟨fun a b c hab hbc => ?_⟩
      exact (charListLe_iff_le _ _).mpr
        (le_trans ((charListLe_iff_le _ _).mp hab) ((charListLe_iff_le _ _).mp hbc))
    have hsorted := List.sorted_insertionSort
      (fun a b : OutputSplitGroup => charListLe a.rootEntry.data b.rootEntry.data = true)
      (pf.foldl insertFileIntoGroups (afp.foldl insertPathIntoGroups []))
    exact hsorted.imp (fun h => (charListLe_iff_le _ _).mp h)

/-- C7 counterexample: with an empty all-paths list and one selected file
`a/x`, the produced group's all-paths list is `[a/x]`, not the matching
subset (the empty list) of the all-paths input. -/
theorem buildOutputSplitGroups_allFilePaths_counterexample :
    (buildOutputSplitGroups [⟨"a/x", "c"⟩] []).map (·.allFilePaths) = [["a/x"]] ∧
    ¬(["a/x"] = List.filter (fun q => getRootEntry q = "a") []) :=
  ⟨by decide, by decide⟩

/-- Witness for `buildOutputSplitGroups_spec`: its conditional conjunct
applied, where the selected file's path occurs in the all-paths list, to
the concrete `src` group. -/
theorem buildOutputSplitGroups_spec_witness :
    wGroupSrc.allFilePaths =
      List.filter (fun q => getRootEntry q = wGroupSrc.rootEntry) ["src/a.ts", "lib/c.ts"] :=
  (buildOutputSplitGroups_spec [⟨"src/a.ts", "x"⟩] ["src/a.ts", "lib/c.ts"]).2.2.2.1
    (by decide) wGroupSrc (by decide)

/-! ## Witness scenarios -/

/-- Witness for `generateSplitOutputPartsByBytes_within_budget` on the
two-part byte scenario. -/
theorem generateSplitOutputPartsByBytes_within_budget_witness :
    wPart1.byteLength ≤ 70 ∧ wPart1.byteLength = getUtf8ByteLength wPart1.content :=
  generateSplitOutputPartsByBytes_within_budget wByteGen ["/test"] wConfig wFiles wPaths 70
    none none wParts (by decide) wPart1 (by decide)

/-- Witness for `split_parts_embed_selected_files` on the two-part byte
scenario. -/
theorem split_parts_embed_selected_files_witness :
    groupFiles (embeddedGroups wParts) = groupFiles (buildOutputSplitGroups wFiles wPaths) :=
  (split_parts_embed_selected_files wByteGen (fun _ => 0) ["/test"] wConfig wFiles wPaths 70 100
    none none).1 wParts (by decide)

/-- Witness for `splitByBytesLoop_steps`: each guarded step of the byte
splitter exercised on concrete states. -/
theorem splitByBytesLoop_steps_witness :
    (splitByBytesLoop wByteCtx [wGroup1, wGroup2] [] [] "" 0 =
      splitByBytesLoop wByteCtx [wGroup2] [] [wGroup1] (String.mk (List.replicate 50 'x')) 50) ∧
    (splitByBytesLoop wByteCtx10 [wGroup1] [] [] "" 0 =
      .error (.rootEntryExceedsMaxSize "src" 50 10)) ∧
    (splitByBytesLoop wByteCtx [wGroupBig] [] [wGroup1] (String.mk (List.replicate 50 'x')) 50 =
      .error (.rootEntryExceedsMaxSize "big" 100 70)) ∧
    (splitByBytesLoop wByteCtx [wGroup2] [] [wGroup1] (String.mk (List.replicate 50 'x')) 50 =
      splitByBytesLoop wByteCtx []
        [mkBytePart "repomix-output.xml" 1 (String.mk (List.replicate 50 'x')) 50 [wGroup1]]
        [wGroup2] (String.mk (List.replicate 50 'x')) 50) :=
  ⟨(splitByBytesLoop_steps wByteCtx wGroup1 [wGroup2] [] [] "" 0).1 (by decide),
   (splitByBytesLoop_steps wByteCtx10 wGroup1 [] [] [] "" 0).2.1 (by decide) rfl,
   (splitByBytesLoop_steps wByteCtx wGroupBig [] []
     [wGroup1] (String.mk (List.replicate 50 'x')) 50).2.2.1 (by decide) (by simp) (by decide),
   (splitByBytesLoop_steps wByteCtx wGroup2 [] []
     [wGroup1] (String.mk (List.replicate 50 'x')) 50).2.2.2.1 (by decide) (by simp) (by decide)⟩

/-- Witness for `tokenBinPackLoop_steps`: each guarded step of the
greedy bin-pack exercised on concrete states. -/
theorem tokenBinPackLoop_steps_witness :
    (tokenBinPackLoop (fun _ => 200) 100 [⟨"a", "c1"⟩] [] [⟨"b", "c2"⟩] 60 =
      tokenBinPackLoop (fun _ => 200) 100 [] [[⟨"b", "c2"⟩], [⟨"a", "c1"⟩]] [] 0) ∧
    (tokenBinPackLoop (fun _ => 200) 100 [⟨"a", "c1"⟩] [] [] 0 =
      tokenBinPackLoop (fun _ => 200) 100 [] [[⟨"a", "c1"⟩]] [] 0) ∧
    (tokenBinPackLoop (fun _ => 60) 100 [⟨"a", "c1"⟩] [] [⟨"b", "c2"⟩] 80 =
      tokenBinPackLoop (fun _ => 60) 100 [] [[⟨"b", "c2"⟩]] [⟨"a", "c1"⟩] 80) ∧
    (tokenBinPackLoop (fun _ => 60) 100 [⟨"a", "c1"⟩] [] [⟨"b", "c2"⟩] 10 =
      tokenBinPackLoop (fun _ => 60) 100 [] [] [⟨"b", "c2"⟩, ⟨"a", "c1"⟩] 90) :=
  ⟨(tokenBinPackLoop_steps (fun _ => 200) 100 ⟨"a", "c1"⟩ [] [] [⟨"b", "c2"⟩] 60).1
      (by decide) (by simp),
   (tokenBinPackLoop_steps (fun _ => 200) 100 ⟨"a", "c1"⟩ [] [] [] 0).2.1 (by decide) rfl,
   (tokenBinPackLoop_steps (fun _ => 60) 100 ⟨"a", "c1"⟩ [] [] [⟨"b", "c2"⟩] 80).2.2.1
      (by decide) (by decide),
   (tokenBinPackLoop_steps (fun _ => 60) 100 ⟨"a", "c1"⟩ [] [] [⟨"b", "c2"⟩] 10).2.2.2.1
      (by decide) (by decide)⟩

/-- Witness for `tokens_single_file_parts_within_budget` on the
three-single-file-parts token scenario. -/
theorem tokens_single_file_parts_within_budget_witness :
    List.Forall₂ (fun (b : List ProcessedFile) (p : OutputSplitPart) =>
        b.length = 1 → p.tokenCount ≤ 100)
      (tokenBinPackLoop (fileTokenLookup (fun _ => 60) scenarioFiles) 100 scenarioFiles [] [] 0)
      wTokParts :=
  tokens_single_file_parts_within_budget (fun _ _ _ _ _ _ _ => "r") (fun _ => 60) ["/t"]
    wTokConfig scenarioFiles ["a", "b", "c"] 100 none none wTokParts (by decide)

set_option maxRecDepth 8000 in
/-- Witness for `generateSplitOutputPartsByTokens_error_iff` on the
oversized-single-file scenario (exact count 200, budget 100). -/
theorem generateSplitOutputPartsByTokens_error_iff_witness :
    ∃ j f,
      j < (tokenBinPackLoop (fileTokenLookup wC5tc wC5files) 100 wC5files [] [] 0).length ∧
      (tokenBinPackLoop (fileTokenLookup wC5tc wC5files) 100 wC5files [] [] 0).getD j [] = [f] ∧
      100 < wC5tc (tokenPartContent
        ⟨wC5gen, wC5tc, ["/t"], wTokConfig, ["big"], none, none, 100,
          (tokenBinPackLoop (fileTokenLookup wC5tc wC5files) 100 wC5files [] [] 0).length⟩
        [f] (j + 1)) ∧
      RepomixError.fileExceedsMaxTokens "big" 200 100 = .fileExceedsMaxTokens f.path
        (wC5tc (tokenPartContent
          ⟨wC5gen, wC5tc, ["/t"], wTokConfig, ["big"], none, none, 100,
            (tokenBinPackLoop (fileTokenLookup wC5tc wC5files) 100 wC5files [] [] 0).length⟩
          [f] (j + 1)))
        100 :=
  (generateSplitOutputPartsByTokens_error_iff wC5gen wC5tc ["/t"] wTokConfig wC5files ["big"]
    100 none none).2 (.fileExceedsMaxTokens "big" 200 100) (by decide)
